import Mathlib

/-!
Shallow embedding of the lyrics synchronization core of the `music-player`
repository (`src/script.js`): the LRC timed-text parser `parseLRC` and the
time-to-line cursor `updateLyrics` together with its reset operations
`renderLyrics` and `hideLyrics`.

Modelling conventions:
* JavaScript numbers are modelled by exact rationals (`ℚ`).  All time values
  appearing in the program are produced by `min * 60 + sec + frac / 1000` on
  integers, and the cursor only compares them, so exact rational arithmetic
  models the JS computations faithfully at every input considered here.
* Strings are processed as `List Char` (JS strings are indexed sequences of
  code units; all characters relevant to the LRC grammar are ASCII).
* The regex `\[(\d+):(\d+)(?:\.(\d+))?\]` used by both `matchAll` and
  `replace` is embedded as the deterministic scanner `matchMarker`: because
  the characters following each `\d+` group (`:`, `.`, `]`) are not digits,
  the regex engine's greedy matching with backtracking coincides with
  maximal-munch scanning, and `matchAll`'s left-to-right non-overlapping
  search coincides with retrying the scanner at each position.
* The scanners `findMarkers` / `removeMarkers` recurse on a fuel argument
  initialised to the string length; a successful `matchMarker` consumes at
  least six characters and a failed one advances by one, so the fuel is
  never exhausted and the fuelled functions compute the full scan.
* `Array.prototype.sort` with comparator `(a, b) => a.time - b.time` is a
  stable ascending sort by `time` (ECMAScript requires sort stability);
  it is modelled by `List.insertionSort`, which is stable and sorts
  ascending for the total preorder `timeLE`.
-/

/-- A parsed lyrics line: `{time, text}` as pushed by `parseLRC`. -/
structure TimedLine where
  time : ℚ
  text : String
deriving DecidableEq, Repr

instance : Inhabited TimedLine := ⟨⟨0, ""⟩⟩

/-- The three capture groups of one regex match `[min:sec(.frac)?]`:
digit strings for minutes and seconds, and the optional fraction digits. -/
structure Marker where
  minD : List Char
  secD : List Char
  fracD : Option (List Char)
deriving DecidableEq, Repr

/-- Attempts to match the regex `\[(\d+):(\d+)(?:\.(\d+))?\]` at the head of
the character list; on success returns the capture groups and the remainder
of the input after the match. -/
def matchMarker (cs : List Char) : Option (Marker × List Char) :=
  match cs with
  | '[' :: r0 =>
    match r0.dropWhile Char.isDigit with
    | ':' :: r2 =>
      if r0.takeWhile Char.isDigit = [] then none
      else
        match r2.dropWhile Char.isDigit with
        | '.' :: r4 =>
          if r2.takeWhile Char.isDigit = [] then none
          else
            match r4.dropWhile Char.isDigit with
            | ']' :: r6 =>
              if r4.takeWhile Char.isDigit = [] then none
              else some (⟨r0.takeWhile Char.isDigit, r2.takeWhile Char.isDigit,
                          some (r4.takeWhile Char.isDigit)⟩, r6)
            | _ => none
        | ']' :: r4 =>
          if r2.takeWhile Char.isDigit = [] then none
          else some (⟨r0.takeWhile Char.isDigit, r2.takeWhile Char.isDigit, none⟩, r4)
        | _ => none
    | _ => none
  | _ => none

/-- Fuelled worker for `findMarkers` (the embedding of
`[...line.matchAll(/\[(\d+):(\d+)(?:\.(\d+))?\]/g)]`): try the scanner at the
current position, and on failure advance one character, as the regex engine
does. -/
def findMarkersAux : ℕ → List Char → List Marker
  | 0, _ => []
  | fuel + 1, cs =>
    match matchMarker cs with
    | some (m, rest) => m :: findMarkersAux fuel rest
    | none =>
      match cs with
      | [] => []
      | _ :: cs2 => findMarkersAux fuel cs2

/-- All matches of the timestamp-marker regex in a line, left to right. -/
def findMarkers (cs : List Char) : List Marker := findMarkersAux cs.length cs

/-- Fuelled worker for `removeMarkers` (the embedding of
`line.replace(/\[(\d+):(\d+)(?:\.(\d+))?\]/g, '')`): drop each match, keep
every character that is not part of a match. -/
def removeMarkersAux : ℕ → List Char → List Char
  | 0, cs => cs
  | fuel + 1, cs =>
    match matchMarker cs with
    | some (_, rest) => removeMarkersAux fuel rest
    | none =>
      match cs with
      | [] => []
      | c :: cs2 => c :: removeMarkersAux fuel cs2

/-- The line with all timestamp markers removed. -/
def removeMarkers (cs : List Char) : List Char := removeMarkersAux cs.length cs

/-- Whitespace as trimmed by `String.prototype.trim` (the characters relevant
to this program are the ASCII ones). -/
def jsWhitespace (c : Char) : Bool :=
  c = ' ' ∨ c = '\t' ∨ c = '\n' ∨ c = '\r' ∨ c = '\x0b' ∨ c = '\x0c'

/-- The embedding of `String.prototype.trim`: strip whitespace from both
ends. -/
def jsTrim (cs : List Char) : List Char :=
  ((cs.dropWhile jsWhitespace).reverse.dropWhile jsWhitespace).reverse

/-- Decimal value of a digit string, as computed by `parseInt(s, 10)` on the
all-digit strings produced by the capture groups. -/
def digitsToNat (ds : List Char) : ℕ :=
  ds.foldl (fun n c => 10 * n + (c.toNat - '0'.toNat)) 0

/-- The embedding of `padEnd(3, '0')`: right-pad with `'0'` up to length 3;
a string of length 3 or more is returned unchanged (`padEnd` never
truncates). -/
def padEnd3 (ds : List Char) : List Char :=
  ds ++ List.replicate (3 - ds.length) '0'

/-- Time of one marker:
`min * 60 + sec + (frac / 1000)` with
`frac = m[3] ? parseInt(m[3].padEnd(3, '0'), 10) : 0`. -/
def markerTime (m : Marker) : ℚ :=
  let min : ℕ := digitsToNat m.minD
  let sec : ℕ := digitsToNat m.secD
  let frac : ℕ :=
    match m.fracD with
    | some f => digitsToNat (padEnd3 f)
    | none => 0
  (min : ℚ) * 60 + (sec : ℚ) + (frac : ℚ) / 1000

/-- The embedding of `lrcText.split(/\r?\n/)`: split at each `"\r\n"` or
`"\n"`.  A lone `'\r'` does not split (the regex `\r?\n` requires the
`'\n'`). -/
def splitLines : List Char → List (List Char)
  | [] => [[]]
  | '\r' :: '\n' :: cs => [] :: splitLines cs
  | '\n' :: cs => [] :: splitLines cs
  | c :: cs =>
    match splitLines cs with
    | [] => [[c]]
    | l :: ls => (c :: l) :: ls

/-- Entries contributed by one physical line: nothing when the line has no
marker (`continue`), otherwise one entry per marker, all carrying the line's
text with every marker removed and whitespace trimmed. -/
def processLine (line : List Char) : List TimedLine :=
  let timeMarks := findMarkers line
  if timeMarks = [] then []
  else
    let text : String := String.mk (jsTrim (removeMarkers line))
    timeMarks.map (fun m => { time := markerTime m, text := text })

/-- Entries of a list of physical lines, in input order (the order in which
`parseLRC` pushes them before sorting). -/
def entriesOfLines (ls : List (List Char)) : List TimedLine :=
  ls.flatMap processLine

/-- Ascending comparison on `time`, the order realised by the comparator
`(a, b) => a.time - b.time`. -/
def timeLE (a b : TimedLine) : Prop := a.time ≤ b.time

instance : DecidableRel timeLE :=
  fun a b => inferInstanceAs (Decidable (a.time ≤ b.time))

instance : IsTotal TimedLine timeLE := ⟨fun a b => le_total a.time b.time⟩

instance : IsTrans TimedLine timeLE := ⟨fun _ _ _ h1 h2 => le_trans h1 h2⟩

/-- The embedding of `parseLRC`: split into physical lines, emit the entries
of each line in order, then stable-sort ascending by `time`. -/
def parseLRC (lrcText : String) : List TimedLine :=
  List.insertionSort timeLE (entriesOfLines (splitLines lrcText.data))

/-- The mutable module state read and written by the lyrics cursor: the
globals `lyricsLines` and `currentLyricIndex` of `script.js`.
`currentLyricIndex` is a JS integer, `-1` meaning "no active line". -/
structure CursorState where
  lines : List TimedLine
  cur : ℤ
deriving DecidableEq, Repr

/-- The forward-extension loop of `updateLyrics`
(`for (let i = currentLyricIndex; i < len; i++)`), embedded structurally
over the suffix `lines.drop i`: at the last index the loop sets `idx = i`
unconditionally; at an interior index it sets `idx = i` and breaks when
`lines[i+1].time > currentTime && lines[i].time <= currentTime`; when the
suffix is empty the loop body never runs and `idx` keeps its initial `-1`. -/
def scanFrom (t : ℚ) : List TimedLine → ℕ → ℤ
  | [], _ => -1
  | [_], i => (i : ℤ)
  | x :: y :: rest, i =>
    if y.time > t ∧ x.time ≤ t then (i : ℤ)
    else scanFrom t (y :: rest) (i + 1)

/-- The full-rescan loop of `updateLyrics` (`for (let i = 0; i < len; i++)`),
embedded structurally over the suffix `lines.drop i`: the loop breaks at the
last index or when `lines[i].time <= currentTime && lines[i+1].time >
currentTime`, and on break sets `idx = i` only if `lines[i].time <=
currentTime`. -/
def fullScanFrom (t : ℚ) : List TimedLine → ℕ → ℤ
  | [], _ => -1
  | [x], i => if x.time ≤ t then (i : ℤ) else -1
  | x :: y :: rest, i =>
    if x.time ≤ t ∧ y.time > t then
      (if x.time ≤ t then (i : ℤ) else -1)
    else fullScanFrom t (y :: rest) (i + 1)

/-- The scan-strategy dispatch of `updateLyrics`: the forward-extension path
is taken exactly when `currentLyricIndex >= 0 && currentLyricIndex <
lyricsLines.length && currentTime >= lyricsLines[currentLyricIndex].time`,
otherwise the loop rescans from index 0. -/
def updateLyricsIdx (lines : List TimedLine) (cur : ℤ) (t : ℚ) : ℤ :=
  if 0 ≤ cur ∧ cur < (lines.length : ℤ) ∧ (lines.getD cur.toNat default).time ≤ t then
    scanFrom t (lines.drop cur.toNat) cur.toNat
  else fullScanFrom t lines 0

/-- The embedding of `updateLyrics(currentTime)`: early return when the line
list is empty; otherwise run the dual-mode scan, apply the trailing
'. at or past the last line' fix-up
(`if (idx === -1 && currentTime >= lines[len-1].time) idx = len-1`), store
the index, and report whether it changed (`idx !== currentLyricIndex`, the
condition guarding the DOM highlight update). -/
def updateLyrics (s : CursorState) (t : ℚ) : CursorState × ℤ × Bool :=
  match s.lines with
  | [] => (s, s.cur, false)
  | l0 :: rest =>
    let idx0 := updateLyricsIdx (l0 :: rest) s.cur t
    let idx :=
      if idx0 = -1 ∧ ((l0 :: rest).getLast (List.cons_ne_nil l0 rest)).time ≤ t then
        ((l0 :: rest).length : ℤ) - 1
      else idx0
    (⟨l0 :: rest, idx⟩, idx, decide (idx ≠ s.cur))

/-- The embedding of `renderLyrics(lines)` together with its caller's
assignment `lyricsLines = parseLRC(text)`: the line list is replaced
wholesale and `currentLyricIndex = -1`; nothing of the previous state
survives. -/
def renderLyrics (_old : CursorState) (lines : List TimedLine) : CursorState :=
  { lines := lines, cur := -1 }

/-- The embedding of `hideLyrics()`: `lyricsLines = []` and
`currentLyricIndex = -1`. -/
def hideLyrics (_old : CursorState) : CursorState :=
  { lines := [], cur := -1 }

/-- Runs a sequence of `updateLyrics` calls, collecting each call's returned
index and changed flag. -/
def runAdvance (s : CursorState) : List ℚ → List (ℤ × Bool)
  | [] => []
  | t :: ts =>
    match updateLyrics s t with
    | (s2, idx, ch) => (idx, ch) :: runAdvance s2 ts

/-- Three lines at times 0, 10, 20, the configuration used by the spec's
examples. -/
def demoLines : List TimedLine := [⟨0, "a"⟩, ⟨10, "b"⟩, ⟨20, "c"⟩]

example : (updateLyrics ⟨demoLines, 2⟩ 3).2.1 = 0 := by decide

example : runAdvance ⟨demoLines, -1⟩ [0, 5, 10, 15, 25] =
    [(0, true), (0, false), (1, true), (1, false), (2, true)] := by decide

example : splitLines (("[0:05]").data) = [['[', '0', ':', '0', '5', ']']] := by decide

example : findMarkers ['[', '0', ':', '0', '5', ']'] = [⟨['0'], ['0', '5'], none⟩] := by decide

example : parseLRC ("[0:05]") = [⟨5, ""⟩] := by
  have h1 : splitLines (("[0:05]").data) = [['[', '0', ':', '0', '5', ']']] := by decide
  have h2 : findMarkers ['[', '0', ':', '0', '5', ']'] = [⟨['0'], ['0', '5'], none⟩] := by decide
  have h3 : jsTrim (removeMarkers ['[', '0', ':', '0', '5', ']']) = [] := by decide
  have h4 : markerTime ⟨['0'], ['0', '5'], none⟩ = 5 := by
    have d1 : digitsToNat ['0'] = 0 := by decide
    have d2 : digitsToNat ['0', '5'] = 5 := by decide
    simp [markerTime, d1, d2]
  simp [parseLRC, h1, entriesOfLines, processLine, h2, h3, h4, List.insertionSort,
    List.orderedInsert]

/-! ### Counting characterisation of the cursor search -/

/-- Boolean test: the entry starts at or before the query time. -/
def qualifies (t : ℚ) (x : TimedLine) : Bool := decide (x.time ≤ t)

/-- Number of entries starting at or before the query time. -/
def qcount (t : ℚ) (l : List TimedLine) : ℕ := l.countP (qualifies t)

@[simp]
theorem qualifies_iff {t : ℚ} {x : TimedLine} : qualifies t x = true ↔ x.time ≤ t := by
  simp [qualifies]

@[simp]
theorem qcount_nil {t : ℚ} : qcount t [] = 0 := rfl

theorem qcount_cons {t : ℚ} {x : TimedLine} {l : List TimedLine} :
    qcount t (x :: l) = qcount t l + if x.time ≤ t then 1 else 0 := by
  simp [qcount, List.countP_cons]

theorem qcount_le_length {t : ℚ} {l : List TimedLine} : qcount t l ≤ l.length :=
  List.countP_le_length _

theorem qcount_eq_zero_of_head_gt {t : ℚ} {x : TimedLine} {l : List TimedLine}
    (hs : List.Sorted timeLE (x :: l)) (hx : t < x.time) : qcount t (x :: l) = 0 := by
  refine List.countP_eq_zero.mpr ?_
  intro a ha
  rcases List.mem_cons.mp ha with rfl | ha2
  · simp [qualifies]
    exact hx
  · have hxa : x.time ≤ a.time := List.rel_of_sorted_cons hs a ha2
    simp [qualifies]
    exact lt_of_lt_of_le hx hxa

theorem fullScanFrom_eq {t : ℚ} :
    ∀ {l : List TimedLine}, List.Sorted timeLE l → ∀ i : ℕ,
      fullScanFrom t l i =
        if qcount t l = 0 then -1 else (i : ℤ) + qcount t l - 1 := by
  intro l
  induction l with
  | nil => intro _ i; simp [fullScanFrom]
  | cons x l ih =>
    intro hs i
    cases l with
    | nil =>
      by_cases hx : x.time ≤ t
      · simp [fullScanFrom, hx, qcount_cons]
      · simp [fullScanFrom, hx, qcount_cons]
    | cons y rest =>
      rw [fullScanFrom]
      by_cases hcond : x.time ≤ t ∧ y.time > t
      · have h0 : qcount t (y :: rest) = 0 :=
          qcount_eq_zero_of_head_gt hs.of_cons hcond.2
        have : qcount t (x :: y :: rest) = 1 := by
          rw [qcount_cons, h0, if_pos hcond.1]
        simp [hcond, this, hcond.1]
      · rw [if_neg hcond, ih hs.of_cons (i + 1)]
        by_cases hx : x.time ≤ t
        · have hy : y.time ≤ t := by
            by_contra hy2
            exact hcond ⟨hx, lt_of_not_le hy2⟩
          have hq : qcount t (x :: y :: rest) = qcount t (y :: rest) + 1 := by
            rw [qcount_cons, if_pos hx]
          have hq2 : 1 ≤ qcount t (y :: rest) := by
            rw [qcount_cons, if_pos hy]; omega
          rw [if_neg (by omega), if_neg (by omega), hq]
          push_cast
          ring
        · have h0 : qcount t (x :: y :: rest) = 0 :=
            qcount_eq_zero_of_head_gt hs (lt_of_not_le hx)
          have h0t : qcount t (y :: rest) = 0 := by
            rw [qcount_cons] at h0
            omega
          simp [h0, h0t]

theorem scanFrom_eq {t : ℚ} :
    ∀ {l : List TimedLine} {x : TimedLine}, List.Sorted timeLE (x :: l) → x.time ≤ t →
      ∀ i : ℕ, scanFrom t (x :: l) i = (i : ℤ) + qcount t (x :: l) - 1 := by
  intro l
  induction l with
  | nil =>
    intro x _ hx i
    simp [scanFrom, qcount_cons, hx]
  | cons y rest ih =>
    intro x hs hx i
    rw [scanFrom]
    by_cases hcond : y.time > t ∧ x.time ≤ t
    · have h0 : qcount t (y :: rest) = 0 :=
        qcount_eq_zero_of_head_gt hs.of_cons hcond.1
      have : qcount t (x :: y :: rest) = 1 := by
        rw [qcount_cons, h0, if_pos hx]
      simp [hcond, this]
    · have hy : y.time ≤ t := by
        by_contra hy2
        exact hcond ⟨lt_of_not_le hy2, hx⟩
      rw [if_neg hcond, ih hs.of_cons hy (i + 1)]
      rw [qcount_cons (x := x), if_pos hx]
      push_cast
      ring

theorem scanFrom_range {t : ℚ} :
    ∀ (l : List TimedLine) (i : ℕ),
      scanFrom t l i = -1 ∨ ((i : ℤ) ≤ scanFrom t l i ∧ scanFrom t l i < (i : ℤ) + l.length) := by
  intro l
  induction l with
  | nil => intro i; left; rfl
  | cons x l ih =>
    intro i
    cases l with
    | nil => right; simp [scanFrom]
    | cons y rest =>
      rw [scanFrom]
      split
      · right
        refine ⟨le_refl _, ?_⟩
        simp only [List.length_cons]
        push_cast
        omega
      · rcases ih (i + 1) with h | h
        · left; exact h
        · right
          refine ⟨by omega, ?_⟩
          have := h.2
          simp only [List.length_cons] at this ⊢
          push_cast at this ⊢
          omega

theorem fullScanFrom_range {t : ℚ} :
    ∀ (l : List TimedLine) (i : ℕ),
      fullScanFrom t l i = -1 ∨
        ((i : ℤ) ≤ fullScanFrom t l i ∧ fullScanFrom t l i < (i : ℤ) + l.length) := by
  intro l
  induction l with
  | nil => intro i; left; rfl
  | cons x l ih =>
    intro i
    cases l with
    | nil =>
      rw [fullScanFrom]
      split
      · right; simp
      · left; rfl
    | cons y rest =>
      rw [fullScanFrom]
      split
      · split
        · right
          refine ⟨le_refl _, ?_⟩
          simp only [List.length_cons]
          push_cast
          omega
        · left; rfl
      · rcases ih (i + 1) with h | h
        · left; exact h
        · right
          refine ⟨by omega, ?_⟩
          have := h.2
          simp only [List.length_cons] at this ⊢
          push_cast at this ⊢
          omega

theorem getD_le_iff_lt_qcount {t : ℚ} :
    ∀ {l : List TimedLine}, List.Sorted timeLE l → ∀ i : ℕ, i < l.length →
      ((l.getD i default).time ≤ t ↔ i < qcount t l) := by
  intro l
  induction l with
  | nil => intro _ i hi; simp at hi
  | cons x l ih =>
    intro hs i hi
    by_cases hx : x.time ≤ t
    · cases i with
      | zero =>
        simp only [List.getD_cons_zero, qcount_cons, if_pos hx]
        exact iff_of_true hx (by omega)
      | succ j =>
        simp only [List.getD_cons_succ, qcount_cons, if_pos hx]
        rw [ih hs.of_cons j (by simpa using hi)]
        omega
    · have h0 : qcount t (x :: l) = 0 :=
        qcount_eq_zero_of_head_gt hs (lt_of_not_le hx)
      rw [h0]
      cases i with
      | zero => simpa using hx
      | succ j =>
        simp only [List.getD_cons_succ]
        have h0t : qcount t l = 0 := by
          rw [qcount_cons] at h0
          omega
        rw [ih hs.of_cons j (by simpa using hi)]
        omega

theorem qcount_eq_add_drop {t : ℚ} {l : List TimedLine} (hs : List.Sorted timeLE l)
    {j : ℕ} (hj : j < l.length) (hq : (l.getD j default).time ≤ t) :
    qcount t l = j + qcount t (l.drop j) := by
  have hsplit : l.take j ++ l.drop j = l := List.take_append_drop j l
  have happ : qcount t (l.take j) + qcount t (l.drop j) = qcount t l := by
    rw [qcount, qcount, qcount, ← List.countP_append, hsplit]
  have hget : l.getD j default = l.get ⟨j, hj⟩ := List.getD_eq_get l default hj
  have hmem : l.get ⟨j, hj⟩ ∈ l.drop j := by
    rw [List.drop_eq_get_cons hj]
    exact List.mem_cons_self _ _
  have htake : qcount t (l.take j) = j := by
    have hall : ∀ a ∈ l.take j, qualifies t a = true := by
      intro a ha
      have hrel : timeLE a (l.get ⟨j, hj⟩) :=
        hs.rel_of_mem_take_of_mem_drop ha hmem
      have : a.time ≤ t := le_trans hrel (hget ▸ hq)
      simpa [qualifies] using this
    have hlen : (l.take j).length = j := by
      rw [List.length_take]
      omega
    rw [qcount, List.countP_eq_length.mpr hall, hlen]
  omega

/-- The index value that `updateLyrics` resolves to on a sorted line list:
`-1` when no line has started yet, otherwise the position of the last line
whose time is at or before the query time. -/
def resolvedIdx (t : ℚ) (lines : List TimedLine) : ℤ :=
  if qcount t lines = 0 then -1 else (qcount t lines : ℤ) - 1

theorem updateLyricsIdx_eq {t : ℚ} {lines : List TimedLine}
    (hs : List.Sorted timeLE lines) (cur : ℤ) :
    updateLyricsIdx lines cur t = resolvedIdx t lines := by
  unfold updateLyricsIdx resolvedIdx
  split
  · next h =>
    obtain ⟨h1, h2, h3⟩ := h
    have hj : cur.toNat < lines.length := by omega
    have hdrop : lines.drop cur.toNat = lines.get ⟨cur.toNat, hj⟩ :: lines.drop (cur.toNat + 1) :=
      List.drop_eq_get_cons hj
    have hgetq : (lines.get ⟨cur.toNat, hj⟩).time ≤ t := by
      rw [← List.getD_eq_get lines default hj]
      exact h3
    have hsd : List.Sorted timeLE (lines.drop cur.toNat) :=
      List.Pairwise.sublist (List.drop_sublist _ _) hs
    rw [hdrop] at hsd
    rw [hdrop, scanFrom_eq hsd hgetq]
    rw [← hdrop]
    have hq : qcount t lines = cur.toNat + qcount t (lines.drop cur.toNat) :=
      qcount_eq_add_drop hs hj h3
    have hpos : 1 ≤ qcount t (lines.drop cur.toNat) := by
      rw [hdrop, qcount_cons, if_pos hgetq]
      omega
    rw [if_neg (by omega)]
    rw [hq]
    push_cast
    omega
  · rw [fullScanFrom_eq hs 0]
    split
    · rfl
    · push_cast
      ring

theorem updateLyrics_eq {t : ℚ} {lines : List TimedLine}
    (hs : List.Sorted timeLE lines) (hne : lines ≠ []) (cur : ℤ) :
    updateLyrics ⟨lines, cur⟩ t =
      (⟨lines, resolvedIdx t lines⟩, resolvedIdx t lines,
        decide (resolvedIdx t lines ≠ cur)) := by
  cases lines with
  | nil => exact absurd rfl hne
  | cons l0 rest =>
    have hidx : updateLyricsIdx (l0 :: rest) cur t = resolvedIdx t (l0 :: rest) :=
      updateLyricsIdx_eq hs cur
    have key :
        (if updateLyricsIdx (l0 :: rest) cur t = -1 ∧
            ((l0 :: rest).getLast (List.cons_ne_nil l0 rest)).time ≤ t then
          (((l0 :: rest).length : ℤ)) - 1
        else updateLyricsIdx (l0 :: rest) cur t) = resolvedIdx t (l0 :: rest) := by
      rw [hidx]
      by_cases h0 : qcount t (l0 :: rest) = 0
      · have hmem : (l0 :: rest).getLast (List.cons_ne_nil l0 rest) ∈ l0 :: rest :=
          List.getLast_mem _
        have hlast : ¬ ((l0 :: rest).getLast (List.cons_ne_nil l0 rest)).time ≤ t := by
          have hz := List.countP_eq_zero.mp h0 _ hmem
          simpa [qualifies] using hz
        rw [if_neg (by intro hcon; exact hlast hcon.2)]
      · have hval : resolvedIdx t (l0 :: rest) = (qcount t (l0 :: rest) : ℤ) - 1 := by
          rw [resolvedIdx, if_neg h0]
        rw [if_neg ?_]
        rw [hval]
        intro hcon
        rw [hcon.1] at hval
        omega
    simp only [updateLyrics, key]

theorem updateLyrics_parts (s : CursorState) (t : ℚ) :
    (updateLyrics s t).1.lines = s.lines ∧
    (updateLyrics s t).1.cur = (updateLyrics s t).2.1 ∧
    (updateLyrics s t).2.2 = decide ((updateLyrics s t).2.1 ≠ s.cur) := by
  obtain ⟨lines, cur⟩ := s
  cases lines with
  | nil => simp [updateLyrics]
  | cons l0 rest => simp [updateLyrics]

theorem updateLyricsIdx_range (lines : List TimedLine) (cur : ℤ) (t : ℚ) :
    updateLyricsIdx lines cur t = -1 ∨
      (0 ≤ updateLyricsIdx lines cur t ∧ updateLyricsIdx lines cur t < (lines.length : ℤ)) := by
  rw [updateLyricsIdx]
  split
  · next h =>
    obtain ⟨h1, h2, _⟩ := h
    have hj : cur.toNat ≤ lines.length := by omega
    rcases scanFrom_range (lines.drop cur.toNat) cur.toNat with hr | hr
    · left; exact hr
    · right
      have hlen : (lines.drop cur.toNat).length = lines.length - cur.toNat :=
        List.length_drop _ _
      constructor
      · have := hr.1
        omega
      · have := hr.2
        rw [hlen] at this
        omega
  · rcases fullScanFrom_range lines 0 with hr | hr
    · left; exact hr
    · right
      refine ⟨hr.1, ?_⟩
      have := hr.2
      omega

/-- Three lines with a tie: times 0, 5, 5. -/
def tieLines : List TimedLine := [⟨0, "x"⟩, ⟨5, "y"⟩, ⟨5, "z"⟩]

/-- Claim C1: on a sorted line list, from a reset cursor or any valid stored
index, `updateLyrics` returns the greatest index whose line time is at or
before the query time; `-1` when the query time precedes the first line, and
the last index when it is at or past the final line's time.  In particular
with lines at times 0, 10, 20 and stored index 2, a query at time 3 resolves
to index 0. -/
theorem claimC1_advance_greatest (lines : List TimedLine) (cur : ℤ) (t : ℚ)
    (hs : List.Sorted timeLE lines)
    (hcur : cur = -1 ∨ (0 ≤ cur ∧ cur < (lines.length : ℤ))) :
    ((updateLyrics ⟨lines, cur⟩ t).2.1 = -1 ∨
      (0 ≤ (updateLyrics ⟨lines, cur⟩ t).2.1 ∧
        (updateLyrics ⟨lines, cur⟩ t).2.1 < (lines.length : ℤ) ∧
        (lines.getD (updateLyrics ⟨lines, cur⟩ t).2.1.toNat default).time ≤ t)) ∧
    (∀ i : ℕ, i < lines.length → (lines.getD i default).time ≤ t →
      (i : ℤ) ≤ (updateLyrics ⟨lines, cur⟩ t).2.1) ∧
    (∀ h0 : lines ≠ [], t < (lines.head h0).time →
      (updateLyrics ⟨lines, cur⟩ t).2.1 = -1) ∧
    (∀ h0 : lines ≠ [], (lines.getLast h0).time ≤ t →
      (updateLyrics ⟨lines, cur⟩ t).2.1 = (lines.length : ℤ) - 1) ∧
    (updateLyrics ⟨demoLines, 2⟩ 3).2.1 = 0 := by
  cases lines with
  | nil =>
    have hc : cur = -1 := by
      rcases hcur with h | h
      · exact h
      · simp at h
        omega
    subst hc
    refine ⟨?_, ?_, ?_, ?_, by decide⟩
    · left; simp [updateLyrics]
    · intro i hi; simp at hi
    · intro h0; exact absurd rfl h0
    · intro h0; exact absurd rfl h0
  | cons l0 rest =>
    have hne : l0 :: rest ≠ [] := List.cons_ne_nil l0 rest
    have heq := updateLyrics_eq (t := t) hs hne cur
    have hval : (updateLyrics ⟨l0 :: rest, cur⟩ t).2.1 = resolvedIdx t (l0 :: rest) := by
      rw [heq]
    rw [hval]
    have hkle : qcount t (l0 :: rest) ≤ (l0 :: rest).length := qcount_le_length
    refine ⟨?_, ?_, ?_, ?_, by decide⟩
    · rw [resolvedIdx]
      by_cases h0 : qcount t (l0 :: rest) = 0
      · left; rw [if_pos h0]
      · right
        rw [if_neg h0]
        have hklen : qcount t (l0 :: rest) - 1 < (l0 :: rest).length := by omega
        refine ⟨by omega, by omega, ?_⟩
        have hiff := getD_le_iff_lt_qcount (t := t) hs (qcount t (l0 :: rest) - 1) hklen
        have htn : ((qcount t (l0 :: rest) : ℤ) - 1).toNat = qcount t (l0 :: rest) - 1 := by
          omega
        rw [htn]
        exact hiff.mpr (by omega)
    · intro i hi hq
      have hik : i < qcount t (l0 :: rest) := (getD_le_iff_lt_qcount hs i hi).mp hq
      rw [resolvedIdx, if_neg (by omega)]
      omega
    · intro h0 hlt
      have hz : qcount t (l0 :: rest) = 0 := qcount_eq_zero_of_head_gt hs hlt
      rw [resolvedIdx, if_pos hz]
    · intro h0 hlast
      have hlen1 : (l0 :: rest).length - 1 < (l0 :: rest).length := by simp
      have hgd : (l0 :: rest).getD ((l0 :: rest).length - 1) default =
          (l0 :: rest).getLast h0 := by
        rw [List.getLast_eq_get, List.getD_eq_get _ _ hlen1]
      have hk : (l0 :: rest).length - 1 < qcount t (l0 :: rest) :=
        (getD_le_iff_lt_qcount hs _ hlen1).mp (by rw [hgd]; exact hlast)
      have hkeq : qcount t (l0 :: rest) = (l0 :: rest).length := by
        simp at hk hkle ⊢
        omega
      rw [resolvedIdx, if_neg (by simp at hkeq ⊢; omega), hkeq]

/-- Witness for C1 at the claim's own example: lines at times 0, 10, 20,
stored active index 2, query time 3 resolves to index 0. -/
theorem claimC1_witness : (updateLyrics ⟨demoLines, 2⟩ 3).2.1 = 0 :=
  (claimC1_advance_greatest demoLines 2 3 (by decide) (by decide)).2.2.2.2

/-- Claim C3: on a sorted line list with several qualifying entries sharing
the maximal time, `updateLyrics` resolves to the last (highest) index among
them, on the forward-extension path as well as on the full-rescan path: any
pair of equal-time qualifying entries bounds the result from below by the
later index, and concretely on times 0, 5, 5 a query at time 5 resolves to
index 2 from a forward start (stored index 0) and from a rescan start
(stored index -1) alike. -/
theorem claimC3_ties_last (lines : List TimedLine) (cur : ℤ) (t : ℚ)
    (hs : List.Sorted timeLE lines)
    (hcur : cur = -1 ∨ (0 ≤ cur ∧ cur < (lines.length : ℤ))) :
    (∀ i j : ℕ, i < j → j < lines.length →
      (lines.getD i default).time = (lines.getD j default).time →
      (lines.getD i default).time ≤ t →
      (j : ℤ) ≤ (updateLyrics ⟨lines, cur⟩ t).2.1) ∧
    (updateLyrics ⟨tieLines, 0⟩ 5).2.1 = 2 ∧
    (updateLyrics ⟨tieLines, -1⟩ 5).2.1 = 2 := by
  refine ⟨?_, by decide, by decide⟩
  intro i j hij hj heqt hq
  cases lines with
  | nil => simp at hj
  | cons l0 rest =>
    have hne : l0 :: rest ≠ [] := List.cons_ne_nil l0 rest
    have heq := updateLyrics_eq (t := t) hs hne cur
    have hval : (updateLyrics ⟨l0 :: rest, cur⟩ t).2.1 = resolvedIdx t (l0 :: rest) := by
      rw [heq]
    rw [hval]
    have hqj : (List.getD (l0 :: rest) j default).time ≤ t := by
      rw [← heqt]
      exact hq
    have hjk : j < qcount t (l0 :: rest) := (getD_le_iff_lt_qcount hs j hj).mp hqj
    rw [resolvedIdx, if_neg (by omega)]
    omega

/-- Witness for C3: on lines with times 0, 5, 5 and stored index 0 (forward
path), a query at time 5 resolves to index 2, the last of the tied pair. -/
theorem claimC3_witness : (updateLyrics ⟨tieLines, 0⟩ 5).2.1 = 2 :=
  (claimC3_ties_last tieLines 0 5 (by decide) (by decide)).2.1

theorem runAdvance_changed (s : CursorState) (ts : List ℚ) :
    (runAdvance s ts).map Prod.snd =
      List.zipWith (fun a b => decide (a ≠ b)) ((runAdvance s ts).map Prod.fst)
        (s.cur :: (runAdvance s ts).map Prod.fst) := by
  induction ts generalizing s with
  | nil => simp [runAdvance]
  | cons t ts ih =>
    obtain ⟨hl, hc, hch⟩ := updateLyrics_parts s t
    rcases hu : updateLyrics s t with ⟨s2, idx, ch⟩
    rw [hu] at hl hc hch
    simp only at hc hch
    rw [runAdvance, hu]
    simp only [List.map_cons, List.zipWith_cons_cons]
    have hcur2 : s2.cur = idx := hc
    rw [hch, ← hcur2, ih s2]

/-- Claim C4: across any sequence of `updateLyrics` calls from the reset
state on a sorted line list, each call's changed flag is true exactly when
the index it returns differs from the index returned by the previous call
(with the reset value -1, "none", standing before the first call);
concretely on times 0, 10, 20, queries 0, 5, 10, 15, 25 return indices
0, 0, 1, 1, 2 with changed flags true, false, true, false, true. -/
theorem claimC4_changed_flags (lines : List TimedLine) (ts : List ℚ)
    (_hs : List.Sorted timeLE lines) :
    ((runAdvance ⟨lines, -1⟩ ts).map Prod.snd =
      List.zipWith (fun a b => decide (a ≠ b)) ((runAdvance ⟨lines, -1⟩ ts).map Prod.fst)
        (-1 :: (runAdvance ⟨lines, -1⟩ ts).map Prod.fst)) ∧
    runAdvance ⟨demoLines, -1⟩ [0, 5, 10, 15, 25] =
      [(0, true), (0, false), (1, true), (1, false), (2, true)] :=
  ⟨runAdvance_changed ⟨lines, -1⟩ ts, by decide⟩

/-- Witness for C4 at the claim's example run. -/
theorem claimC4_witness :
    runAdvance ⟨demoLines, -1⟩ [0, 5, 10, 15, 25] =
      [(0, true), (0, false), (1, true), (1, false), (2, true)] :=
  (claimC4_changed_flags demoLines [] (by decide)).2

/-- Claim C6: on a sorted line list, from any cursor state, two consecutive
`updateLyrics` calls with the same time return the same index, and the
second call's changed flag is false. -/
theorem claimC6_idempotent (lines : List TimedLine) (cur : ℤ) (t : ℚ)
    (hs : List.Sorted timeLE lines) :
    (updateLyrics (updateLyrics ⟨lines, cur⟩ t).1 t).2.1 =
      (updateLyrics ⟨lines, cur⟩ t).2.1 ∧
    (updateLyrics (updateLyrics ⟨lines, cur⟩ t).1 t).2.2 = false := by
  cases lines with
  | nil => simp [updateLyrics]
  | cons l0 rest =>
    have hne : l0 :: rest ≠ [] := List.cons_ne_nil l0 rest
    have h1 := updateLyrics_eq (t := t) hs hne cur
    have h2 := updateLyrics_eq (t := t) hs hne (resolvedIdx t (l0 :: rest))
    rw [h1]
    simp only [h2]
    simp

/-- Witness for C6 on lines at times 0, 10, 20 from the reset state at
time 5. -/
theorem claimC6_witness :
    (updateLyrics (updateLyrics ⟨demoLines, -1⟩ 5).1 5).2.1 =
      (updateLyrics ⟨demoLines, -1⟩ 5).2.1 ∧
    (updateLyrics (updateLyrics ⟨demoLines, -1⟩ 5).1 5).2.2 = false :=
  claimC6_idempotent demoLines (-1) 5 (by decide)

/-- Claim C9: both resets (`renderLyrics` with a new line list, and
`hideLyrics` clearing the lyrics) force the active index to -1; with a -1
index the scan dispatch takes the full-rescan path from index 0 (never the
forward-extension path), and the result of the next `updateLyrics` call is
the same whatever state existed before the reset. -/
theorem claimC9_reset (s1 s2 : CursorState) (lines : List TimedLine) (t : ℚ) :
    (renderLyrics s1 lines).cur = -1 ∧
    (hideLyrics s1).cur = -1 ∧
    (hideLyrics s1).lines = [] ∧
    updateLyricsIdx lines (-1) t = fullScanFrom t lines 0 ∧
    updateLyrics (renderLyrics s1 lines) t = updateLyrics (renderLyrics s2 lines) t := by
  refine ⟨rfl, rfl, rfl, ?_, rfl⟩
  rw [updateLyricsIdx, if_neg]
  intro h
  have := h.1
  omega

/-- Claim C10: `updateLyrics` is total and in-bounds: with an empty line
list it returns immediately leaving the stored index unchanged; with a
stored index outside `[0, length)` the dispatch falls back to the full
rescan; the returned index is always -1 or a valid position of the current
line list; the line list is not modified; and the index it stores is
exactly the index it returns. -/
theorem claimC10_safety (s : CursorState) (t : ℚ) :
    (s.lines = [] → updateLyrics s t = (s, s.cur, false)) ∧
    (¬ (0 ≤ s.cur ∧ s.cur < (s.lines.length : ℤ)) →
      updateLyricsIdx s.lines s.cur t = fullScanFrom t s.lines 0) ∧
    (updateLyrics s t).1.lines = s.lines ∧
    ((updateLyrics s t).2.1 = -1 ∨
      (0 ≤ (updateLyrics s t).2.1 ∧ (updateLyrics s t).2.1 < (s.lines.length : ℤ)) ∨
      (s.lines = [] ∧ (updateLyrics s t).2.1 = s.cur)) ∧
    (updateLyrics s t).1.cur = (updateLyrics s t).2.1 := by
  obtain ⟨lines, cur⟩ := s
  obtain ⟨hl, hc, _⟩ := updateLyrics_parts ⟨lines, cur⟩ t
  refine ⟨?_, ?_, hl, ?_, hc⟩
  · intro h
    simp only at h
    subst h
    rfl
  · intro h
    simp only at h
    rw [updateLyricsIdx, if_neg]
    intro hcon
    exact h ⟨hcon.1, hcon.2.1⟩
  · cases lines with
    | nil =>
      right; right
      exact ⟨rfl, rfl⟩
    | cons l0 rest =>
      have hrng := updateLyricsIdx_range (l0 :: rest) cur t
      have hresult :
          (updateLyrics ⟨l0 :: rest, cur⟩ t).2.1 =
            (if updateLyricsIdx (l0 :: rest) cur t = -1 ∧
                ((l0 :: rest).getLast (List.cons_ne_nil l0 rest)).time ≤ t then
              (((l0 :: rest).length : ℤ)) - 1
            else updateLyricsIdx (l0 :: rest) cur t) := by
        simp only [updateLyrics]
      rw [hresult]
      split
      · right; left
        constructor
        · simp
        · simp
      · rcases hrng with hr | hr
        · left; exact hr
        · right; left; exact hr

/-- Witness for C10: on an empty line list the call returns immediately and
leaves the stored index (here 7) unchanged. -/
theorem claimC10_witness : updateLyrics ⟨[], 7⟩ 3 = (⟨[], 7⟩, 7, false) :=
  (claimC10_safety ⟨[], 7⟩ 3).1 rfl

/-! ### Concrete parser evaluations -/

theorem markerTime_some (mi se f : List Char) :
    markerTime ⟨mi, se, some f⟩ =
      (digitsToNat mi : ℚ) * 60 + (digitsToNat se : ℚ) +
        (digitsToNat (padEnd3 f) : ℚ) / 1000 := rfl

theorem parseLRC_eval1 : parseLRC ("[0:05]") = [⟨5, ""⟩] := by
  have h1 : splitLines (("[0:05]").data) = [['[', '0', ':', '0', '5', ']']] := by decide
  have h2 : findMarkers ['[', '0', ':', '0', '5', ']'] = [⟨['0'], ['0', '5'], none⟩] := by
    decide
  have h3 : jsTrim (removeMarkers ['[', '0', ':', '0', '5', ']']) = [] := by decide
  have h4 : markerTime ⟨['0'], ['0', '5'], none⟩ = 5 := by
    have d1 : digitsToNat ['0'] = 0 := by decide
    have d2 : digitsToNat ['0', '5'] = 5 := by decide
    simp [markerTime, d1, d2]
  simp [parseLRC, h1, entriesOfLines, processLine, h2, h3, h4, List.insertionSort,
    List.orderedInsert]

theorem parseLRC_eval2 : (parseLRC ("[1:02.5]")).map TimedLine.time = [(62.5 : ℚ)] := by
  have h1 : splitLines (("[1:02.5]").data) =
      [['[', '1', ':', '0', '2', '.', '5', ']']] := by decide
  have h2 : findMarkers ['[', '1', ':', '0', '2', '.', '5', ']'] =
      [⟨['1'], ['0', '2'], some ['5']⟩] := by decide
  have h3 : jsTrim (removeMarkers ['[', '1', ':', '0', '2', '.', '5', ']']) = [] := by decide
  have h4 : markerTime ⟨['1'], ['0', '2'], some ['5']⟩ = 62.5 := by
    have d1 : digitsToNat ['1'] = 1 := by decide
    have d2 : digitsToNat ['0', '2'] = 2 := by decide
    have d3 : digitsToNat (padEnd3 ['5']) = 500 := by decide
    rw [markerTime_some, d1, d2, d3]
    norm_num
  simp [parseLRC, h1, entriesOfLines, processLine, h2, h3, h4, List.insertionSort,
    List.orderedInsert]

theorem parseLRC_eval3 : (parseLRC ("[1:02.50]")).map TimedLine.time = [(62.5 : ℚ)] := by
  have h1 : splitLines (("[1:02.50]").data) =
      [['[', '1', ':', '0', '2', '.', '5', '0', ']']] := by decide
  have h2 : findMarkers ['[', '1', ':', '0', '2', '.', '5', '0', ']'] =
      [⟨['1'], ['0', '2'], some ['5', '0']⟩] := by decide
  have h3 : jsTrim (removeMarkers ['[', '1', ':', '0', '2', '.', '5', '0', ']']) = [] := by
    decide
  have h4 : markerTime ⟨['1'], ['0', '2'], some ['5', '0']⟩ = 62.5 := by
    have d1 : digitsToNat ['1'] = 1 := by decide
    have d2 : digitsToNat ['0', '2'] = 2 := by decide
    have d3 : digitsToNat (padEnd3 ['5', '0']) = 500 := by decide
    rw [markerTime_some, d1, d2, d3]
    norm_num
  simp [parseLRC, h1, entriesOfLines, processLine, h2, h3, h4, List.insertionSort,
    List.orderedInsert]

theorem parseLRC_eval4 : (parseLRC ("[1:02.500]")).map TimedLine.time = [(62.5 : ℚ)] := by
  have h1 : splitLines (("[1:02.500]").data) =
      [['[', '1', ':', '0', '2', '.', '5', '0', '0', ']']] := by decide
  have h2 : findMarkers ['[', '1', ':', '0', '2', '.', '5', '0', '0', ']'] =
      [⟨['1'], ['0', '2'], some ['5', '0', '0']⟩] := by decide
  have h3 : jsTrim (removeMarkers ['[', '1', ':', '0', '2', '.', '5', '0', '0', ']']) = [] := by
    decide
  have h4 : markerTime ⟨['1'], ['0', '2'], some ['5', '0', '0']⟩ = 62.5 := by
    have d1 : digitsToNat ['1'] = 1 := by decide
    have d2 : digitsToNat ['0', '2'] = 2 := by decide
    have d3 : digitsToNat (padEnd3 ['5', '0', '0']) = 500 := by decide
    rw [markerTime_some, d1, d2, d3]
    norm_num
  simp [parseLRC, h1, entriesOfLines, processLine, h2, h3, h4, List.insertionSort,
    List.orderedInsert]

theorem parseLRC_eval5 : (parseLRC ("[1:02.1234]")).map TimedLine.time = [(63.234 : ℚ)] := by
  have h1 : splitLines (("[1:02.1234]").data) =
      [['[', '1', ':', '0', '2', '.', '1', '2', '3', '4', ']']] := by decide
  have h2 : findMarkers ['[', '1', ':', '0', '2', '.', '1', '2', '3', '4', ']'] =
      [⟨['1'], ['0', '2'], some ['1', '2', '3', '4']⟩] := by decide
  have h3 : jsTrim (removeMarkers ['[', '1', ':', '0', '2', '.', '1', '2', '3', '4', ']']) =
      [] := by decide
  have h4 : markerTime ⟨['1'], ['0', '2'], some ['1', '2', '3', '4']⟩ = 63.234 := by
    have d1 : digitsToNat ['1'] = 1 := by decide
    have d2 : digitsToNat ['0', '2'] = 2 := by decide
    have d3 : digitsToNat (padEnd3 ['1', '2', '3', '4']) = 1234 := by decide
    rw [markerTime_some, d1, d2, d3]
    norm_num
  simp [parseLRC, h1, entriesOfLines, processLine, h2, h3, h4, List.insertionSort,
    List.orderedInsert]

/-- Claim C5: for every input string the parse result is sorted ascending by
time, and entries with equal time keep the relative order in which their
markers appeared in the input (the entries before sorting are emitted in
input order, and sorting preserves each equal-time group). -/
theorem claimC5_sorted_stable (s : String) :
    List.Sorted timeLE (parseLRC s) ∧
    ∀ t : ℚ, (parseLRC s).filter (fun e => decide (e.time = t)) =
      (entriesOfLines (splitLines s.data)).filter (fun e => decide (e.time = t)) := by
  constructor
  · exact List.sorted_insertionSort timeLE _
  · intro t
    have hdef : parseLRC s = List.insertionSort timeLE (entriesOfLines (splitLines s.data)) :=
      rfl
    rw [hdef]
    set pre := entriesOfLines (splitLines s.data) with hpre
    set p : TimedLine → Bool := fun e => decide (e.time = t) with hp
    have hc : (pre.filter p).Sublist pre := List.filter_sublist _
    have hpw : (pre.filter p).Pairwise timeLE := by
      refine List.pairwise_of_forall_mem_list ?_
      intro a ha b hb
      have hat : a.time = t := by simpa [hp] using List.of_mem_filter ha
      have hbt : b.time = t := by simpa [hp] using List.of_mem_filter hb
      rw [timeLE, hat, hbt]
    have hsub : (pre.filter p).Sublist (List.insertionSort timeLE pre) :=
      List.sublist_insertionSort hpw hc
    have hfilter_self : (pre.filter p).filter p = pre.filter p :=
      List.filter_eq_self.mpr (fun a ha => List.of_mem_filter ha)
    have hsubf : (pre.filter p).Sublist ((List.insertionSort timeLE pre).filter p) := by
      rw [← hfilter_self]
      exact List.Sublist.filter p hsub
    have hperm : ((List.insertionSort timeLE pre).filter p).Perm (pre.filter p) :=
      (List.perm_insertionSort timeLE pre).filter p
    have hlen : (pre.filter p).length = ((List.insertionSort timeLE pre).filter p).length :=
      hperm.length_eq.symm
    exact (List.Sublist.eq_of_length hsubf hlen).symm

/-- Claim C7: the parser signals no error on any input: when no line of the
input contains a marker the result is empty (in particular on the empty
string and on marker-free text), and a line whose bracketed content fails
the marker pattern contributes no entries while the entries of the
surrounding lines are unchanged. -/
theorem claimC7_no_errors (s : String) :
    ((∀ line ∈ splitLines s.data, findMarkers line = []) → parseLRC s = []) ∧
    (∀ line : List Char, findMarkers line = [] → processLine line = []) ∧
    (∀ pre post : List (List Char), ∀ bad : List Char, findMarkers bad = [] →
      entriesOfLines (pre ++ bad :: post) = entriesOfLines (pre ++ post)) ∧
    parseLRC ("") = [] ∧
    parseLRC ("no timestamps here") = [] := by
  have hempty : ∀ line : List Char, findMarkers line = [] → processLine line = [] := by
    intro line h
    simp [processLine, h]
  refine ⟨?_, hempty, ?_, by decide, by decide⟩
  · intro hall
    have hnil : entriesOfLines (splitLines s.data) = [] := by
      rw [entriesOfLines]
      exact List.bind_eq_nil.mpr (fun line hl => hempty line (hall line hl))
    rw [parseLRC, hnil]
    rfl
  · intro pre post bad hbad
    simp [entriesOfLines, hempty bad hbad]

/-- Witness for C7: marker-free text parses to the empty sequence. -/
theorem claimC7_witness : parseLRC ("plain text line") = [] :=
  (claimC7_no_errors ("plain text line")).1 (by decide)

/-- Claim C8: a physical line carrying at least one marker emits exactly one
entry per marker, each with the line's text with all markers removed and
trimmed (kept even when that text is empty); in particular the single line
consisting of one marker at 0:05 parses to one entry with empty text. -/
theorem claimC8_entries_per_marker (line : List Char) (hne : findMarkers line ≠ []) :
    (processLine line).length = (findMarkers line).length ∧
    (∀ e ∈ processLine line, e.text = String.mk (jsTrim (removeMarkers line))) ∧
    (processLine line).map TimedLine.time = (findMarkers line).map markerTime ∧
    parseLRC ("[0:05]") = [⟨5, ""⟩] := by
  refine ⟨?_, ?_, ?_, parseLRC_eval1⟩
  · simp [processLine, hne]
  · intro e he
    simp only [processLine, if_neg hne, List.mem_map] at he
    obtain ⟨m, _, rfl⟩ := he
    rfl
  · simp [processLine, hne, List.map_map]

/-- Witness for C8 on the line consisting solely of the marker at 0:05: one
entry per marker. -/
theorem claimC8_witness :
    (processLine (("[0:05]").data)).length = (findMarkers (("[0:05]").data)).length :=
  (claimC8_entries_per_marker (("[0:05]").data) (by decide)).1

/-- Claim C2 counterexample: the claim's input `[1:02.1234]` parses to time
63.234 (the four fraction digits are all kept as thousandths, because
`padEnd(3, '0')` never truncates), not 62.123 as the claim states. -/
theorem claimC2_counterexample :
    (parseLRC ("[1:02.1234]")).map TimedLine.time = [(63.234 : ℚ)] ∧
    (63.234 : ℚ) ≠ (62.123 : ℚ) :=
  ⟨parseLRC_eval5, by norm_num⟩

/-- Claim C2 (amended): a fraction digit string of at most 3 digits is
right-padded with zeros to 3 digits and read as thousandths, so the three
spellings of 62.5 agree; a longer fraction is used in full (`padEnd` never
truncates), so `[1:02.1234]` contributes 1234 thousandths and parses to
63.234. -/
theorem claimC2_fraction_amended (ds : List Char) (_hlen : ds.length ≤ 3) :
    digitsToNat (padEnd3 ds) = digitsToNat ds * 10 ^ (3 - ds.length) ∧
    (∀ es : List Char, 3 ≤ es.length → padEnd3 es = es) ∧
    (∀ mi se f : List Char, markerTime ⟨mi, se, some f⟩ =
      (digitsToNat mi : ℚ) * 60 + (digitsToNat se : ℚ) +
        (digitsToNat (padEnd3 f) : ℚ) / 1000) ∧
    (parseLRC ("[1:02.5]")).map TimedLine.time = [(62.5 : ℚ)] ∧
    (parseLRC ("[1:02.50]")).map TimedLine.time = [(62.5 : ℚ)] ∧
    (parseLRC ("[1:02.500]")).map TimedLine.time = [(62.5 : ℚ)] ∧
    (parseLRC ("[1:02.1234]")).map TimedLine.time = [(63.234 : ℚ)] := by
  have hzeros : ∀ (k : ℕ) (n : ℕ),
      List.foldl (fun n c => 10 * n + (c.toNat - '0'.toNat)) n (List.replicate k '0') =
        n * 10 ^ k := by
    intro k
    induction k with
    | zero => intro n; simp
    | succ j ih =>
      intro n
      rw [List.replicate_succ, List.foldl_cons, ih]
      have hz : '0'.toNat - '0'.toNat = 0 := by decide
      rw [hz]
      ring
  refine ⟨?_, ?_, fun mi se f => markerTime_some mi se f,
    parseLRC_eval2, parseLRC_eval3, parseLRC_eval4, parseLRC_eval5⟩
  · rw [padEnd3, digitsToNat, List.foldl_append, hzeros]
    rfl
  · intro es hes
    rw [padEnd3, Nat.sub_eq_zero_of_le hes]
    simp

/-- Witness for the amended C2: the one-digit fraction 5 is read as
500 thousandths. -/
theorem claimC2_witness :
    digitsToNat (padEnd3 ['5']) = digitsToNat ['5'] * 10 ^ (3 - (['5'] : List Char).length) :=
  (claimC2_fraction_amended ['5'] (by decide)).1
